import Mathlib

/-!
Verification development for the slnpm package installer.

The definitions below are a shallow embedding of the installer's core
(`src/core.ts` of the final iteration, together with the earlier drafts
where a claim refers to them).  Pure computations (version-range
resolution, dependency-token parsing, store-directory scanning,
manifest edits) are translated directly as Lean functions; the
filesystem-walking procedures are modelled as fuel-indexed state
transformers over an explicit finite filesystem description, and the
subprocess/error-handling wrappers as functions on outcome values.

The theorems at the end of the file settle the frozen claims about the
specification.
-/

namespace Slnpm

/-! ## JavaScript-style string helpers

The source manipulates names with `String.prototype.split`,
first-character tests, `String.prototype.includes` and
`Array.prototype.sort`.  These are modelled over `List Char` so that
every operation is a structural recursion.
-/

/-- Split a character list at every occurrence of `sep`, exactly like
JavaScript `s.split(sep)` for a single-character separator: the result
is always non-empty, and separators at the ends produce empty groups. -/
def jsCharsSplit (sep : Char) : List Char → List (List Char)
  | [] => [[]]
  | c :: rest =>
    if c = sep then [] :: jsCharsSplit sep rest
    else
      match jsCharsSplit sep rest with
      | [] => [[c]]
      | g :: gs => (c :: g) :: gs

/-- JavaScript `s.split(sep)` on strings. -/
def jsSplit (sep : Char) (s : String) : List String :=
  (jsCharsSplit sep s.toList).map String.mk

/-- JavaScript `s[0] === c`: false on the empty string. -/
def jsStartsWithChar (c : Char) (s : String) : Bool :=
  match s.toList with
  | [] => false
  | d :: _ => d = c

/-- Does `hay` start with `needle`? Helper for the substring test. -/
def charsLead : List Char → List Char → Bool
  | [], _ => true
  | _ :: _, [] => false
  | a :: as, b :: bs => a = b && charsLead as bs

/-- Does `hay` contain `needle` as a contiguous substring?  Helper for
JavaScript `hay.includes(needle)`. -/
def charsIncl (needle : List Char) : List Char → Bool
  | [] => charsLead needle []
  | c :: t => charsLead needle (c :: t) || charsIncl needle t

/-- JavaScript `hay.includes(needle)`. -/
def strIncludes (hay needle : String) : Bool :=
  charsIncl needle.toList hay.toList

/-- Total order on character lists, modelling the default JavaScript
string comparison used by `Array.prototype.sort` (code-unit
lexicographic; identical on the ASCII names this program sorts). -/
def charsLe : List Char → List Char → Bool
  | [], _ => true
  | _ :: _, [] => false
  | a :: as, b :: bs => if a = b then charsLe as bs else decide (a < b)

/-- JavaScript default string comparison on strings. -/
def strLeJS (a b : String) : Bool :=
  charsLe a.toList b.toList

/-! ## Semantic versions

Modelled from the spec: an `ExactVersion` is a `MAJOR.MINOR.PATCH`
triple optionally followed by dot-separated prerelease identifiers,
strictly ordered by semver precedence (numeric identifiers below
alphanumeric ones, a shorter prerelease list below an extension of it,
and a release above every prerelease of the same triple). -/

/-- One prerelease identifier: numeric or alphanumeric. -/
inductive PreId where
  | num (n : Nat)
  | alpha (s : String)
deriving DecidableEq, Repr

/-- A semantic version.  `pre = []` means a release version. -/
structure Version where
  major : Nat
  minor : Nat
  patch : Nat
  pre : List PreId
deriving DecidableEq, Repr

/-- Order key of a prerelease identifier: numeric identifiers compare
below alphanumeric ones. -/
def PreId.key : PreId → Nat ⊕ₗ String
  | .num n => toLex (Sum.inl n)
  | .alpha s => toLex (Sum.inr s)

/-- Order key of a version: lexicographic on the triple, then on the
prerelease list, with the release (`pre = []`) mapped to the top
element so that it is above every prerelease. -/
def Version.key (v : Version) :
    Lex (Nat × Lex (Nat × Lex (Nat × WithTop (List (Nat ⊕ₗ String))))) :=
  toLex (v.major, toLex (v.minor, toLex (v.patch,
    if v.pre = [] then (⊤ : WithTop (List (Nat ⊕ₗ String)))
    else ((v.pre.map PreId.key : List (Nat ⊕ₗ String)) :
      WithTop (List (Nat ⊕ₗ String))))))

theorem preIdKey_injective : Function.Injective PreId.key := by
  intro a b h
  cases a <;> cases b <;> simp [PreId.key, toLex] at h <;> simp [h]

theorem versionKey_injective : Function.Injective Version.key := by
  intro a b h
  have h1 := congrArg (fun x => (ofLex x).1) h
  have h2 := congrArg (fun x => (ofLex (ofLex x).2).1) h
  have h3 := congrArg (fun x => (ofLex (ofLex (ofLex x).2).2).1) h
  have h4 := congrArg (fun x => (ofLex (ofLex (ofLex x).2).2).2) h
  simp only [Version.key, ofLex_toLex] at h1 h2 h3 h4
  rcases a with ⟨a1, a2, a3, ap⟩
  rcases b with ⟨b1, b2, b3, bp⟩
  simp only at h1 h2 h3 h4
  simp only [Version.mk.injEq]
  refine ⟨h1, h2, h3, ?_⟩
  by_cases hap : ap = [] <;> by_cases hbp : bp = [] <;> simp [hap, hbp] at h4 ⊢
  exact List.map_injective_iff.mpr preIdKey_injective h4

/-- Semver precedence as a linear order on `Version`. -/
instance : LinearOrder Version :=
  LinearOrder.lift' Version.key versionKey_injective

/-! ## Version ranges

Modelled from the spec: a `VersionRange` is one of `*`, an exact
version, a caret range, a tilde range, a major wildcard, a compound
`>=a <b`, or the tag `latest`. -/

/-- A version range as described by the spec data model. -/
inductive Range where
  | star
  | latest
  | exact (v : Version)
  | caret (v : Version)
  | tilde (v : Version)
  | majorWild (m : Nat)
  | bounded (lo : Version) (hi : Version)
deriving DecidableEq, Repr

/-- Exclusive upper bound of a caret range: next major for `^x.y.z`
with `x > 0`, next minor for `^0.y.z` with `y > 0`, next patch for
`^0.0.z`; the `-0` prerelease marker makes the bound exclusive of all
prereleases of the bound triple. -/
def caretUpper (u : Version) : Version :=
  if 0 < u.major then ⟨u.major + 1, 0, 0, [.num 0]⟩
  else if 0 < u.minor then ⟨0, u.minor + 1, 0, [.num 0]⟩
  else ⟨0, 0, u.patch + 1, [.num 0]⟩

/-- Exclusive upper bound of a tilde range: the next minor version. -/
def tildeUpper (u : Version) : Version :=
  ⟨u.major, u.minor + 1, 0, [.num 0]⟩

/-- Modelled from the spec: the semver library's `satisfies(version,
range)` with the standard range semantics; `*` matches every
well-formed version, and `latest` behaves like `*` (the spec prescribes
normalizing it before matching). -/
def satisfies (v : Version) : Range → Bool
  | .star => true
  | .latest => true
  | .exact u => decide (v = u)
  | .caret u => decide (u ≤ v) && decide (v < caretUpper u)
  | .tilde u => decide (u ≤ v) && decide (v < tildeUpper u)
  | .majorWild m => decide (v.major = m)
  | .bounded lo hi => decide (lo ≤ v) && decide (v < hi)

/-- One step of the running-maximum scan used by `maxSatisfying`:
keep the current candidate unless the new version satisfies the range
and is higher than the candidate. -/
def maxStep (range : Range) (acc : Option Version) (v : Version) : Option Version :=
  if satisfies v range then
    match acc with
    | none => some v
    | some m => if m < v then some v else some m
  else acc

/-- Modelled from the spec: the semver library's
`maxSatisfying(candidates, range)`, a single scan over the candidates
keeping the highest one that satisfies the range, `none` when no
candidate satisfies. -/
def maxSatisfying (versions : List Version) (range : Range) : Option Version :=
  versions.foldl (maxStep range) none

/-- Normalization of the `latest` tag, as written in
`findLatestMatch`. -/
def normalizeLatest (r : Range) : Range :=
  if r = .latest then .star else r

/-- Translated from `findLatestMatch` in src/src/core.ts: replace the
`latest` range by `*`, then take the maximum satisfying candidate. -/
def findLatestMatch (versionRange : Range) (exactVersions : List Version) :
    Option Version :=
  let versionRange := if versionRange = .latest then .star else versionRange
  maxSatisfying exactVersions versionRange

/-- View an optional version inside `WithBot Version`, for comparison
with `List.maximum`. -/
def ofOpt : Option Version → WithBot Version
  | none => ⊥
  | some v => v

/-! ## Store index and store-directory scan

`scanStorePackages` in src/src/core.ts lists the store directory; a
child starting with `@` is an organisation directory that is descended
one level.  Each terminal directory name is split on `@` and the pair
is recorded in the in-memory index.  JavaScript destructuring
`let [name, version] = dirname.split('@')` leaves `version` equal to
`undefined` when the name contains no `@`; the index therefore stores
`Option String` versions, with `none` playing the role of
`undefined`. -/

/-- The in-memory store index: package name to recorded version set,
in insertion order.  A `none` version is JavaScript `undefined`. -/
abbrev StoreIndex := List (String × List (Option String))

/-- Translated from `getVersions(map, name).add(version)`: find or
create the entry for `name` and add `version` to its set. -/
def getVersionsAdd (idx : StoreIndex) (name : String) (version : Option String) :
    StoreIndex :=
  match idx with
  | [] => [(name, [version])]
  | (n, vs) :: rest =>
    if n = name then (n, if version ∈ vs then vs else vs ++ [version]) :: rest
    else (n, vs) :: getVersionsAdd rest name version

/-- Lookup of a name in the index. -/
def idxFind (idx : StoreIndex) (name : String) : Option (List (Option String)) :=
  match idx with
  | [] => none
  | (n, vs) :: rest => if n = name then some vs else idxFind rest name

/-- The index maps `name` to a set containing `version`. -/
def idxHas (idx : StoreIndex) (name : String) (version : Option String) : Prop :=
  ∃ vs, idxFind idx name = some vs ∧ version ∈ vs

/-- Translated from the body of the scan loop in `scanStorePackages`:
one direct child of the store directory, given as its name together
with the names of its own children (used only when the child is an
`@org` directory). -/
def scanChild (idx : StoreIndex) (child : String × List String) : StoreIndex :=
  if jsStartsWithChar '@' child.1 = false then
    let parts := jsSplit '@' child.1
    getVersionsAdd idx (parts.headD "") parts[1]?
  else
    child.2.foldl
      (fun idx kid =>
        let parts := jsSplit '@' kid
        getVersionsAdd idx (child.1 ++ "/" ++ parts.headD "") parts[1]?)
      idx

/-- Translated from `scanStorePackages` in src/src/core.ts. -/
def scanStorePackages (storeListing : List (String × List String)) : StoreIndex :=
  storeListing.foldl scanChild []

/-- Translated from `populateContext` in the direct-fetch draft
(src/core.ts): each store child is given with the number of files
inside it; empty directories are skipped, the name is split on `@`,
two parts mean an unscoped package, three parts an org-scoped one, any
other shape is skipped. -/
def populateContext (children : List (String × Nat)) : StoreIndex :=
  children.foldl
    (fun idx child =>
      if child.2 = 0 then idx
      else
        match jsSplit '@' child.1 with
        | [packageName, version] => getVersionsAdd idx packageName (some version)
        | [p0, p1, version] => getVersionsAdd idx (p0 ++ "@" ++ p1) (some version)
        | _ => idx)
    []

/-! ## Dependency token parsing and manifest sections -/

/-- Translated from `parseDep` in src/src/core.ts: split an
install/uninstall token on `@` into a package name and an optional
version range text. -/
def parseDep (dep : String) : Except String (String × Option String) :=
  if dep.length = 0 then .error "Invalid dependency format (empty string)"
  else
    match jsSplit '@' dep with
    | [name] => .ok (name, none)
    | [p0, p1] =>
      if p0.length = 0 then .ok ("@" ++ p1, none)
      else .ok (p0, if p1.length = 0 then none else some p1)
    | [p0, p1, p2] =>
      if p0.length = 0 then .ok ("@" ++ p1, if p2.length = 0 then none else some p2)
      else .error ("Invalid dependency format: " ++ dep)
    | _ => .error ("Invalid dependency format: " ++ dep)

/-- First value recorded for a key in a dependency section
(JavaScript `deps[key]`). -/
def depsLookupFirst : List (String × String) → String → Option String
  | [], _ => none
  | kv :: rest, k => if kv.1 = k then some kv.2 else depsLookupFirst rest k

/-- Insert a key into an ascending key list, helper for the sorted
rebuild in `sortDeps`. -/
def insortKey (k : String) : List String → List String
  | [] => [k]
  | x :: xs => if strLeJS k x then k :: x :: xs else x :: insortKey k xs

/-- JavaScript `Object.keys(deps).sort()`. -/
def sortKeys : List String → List String
  | [] => []
  | x :: xs => insortKey x (sortKeys xs)

/-- Translated from `sortDeps` in src/src/core.ts: rebuild the section
with its keys in sorted order. -/
def sortDeps (deps : List (String × String)) : List (String × String) :=
  (sortKeys (deps.map Prod.fst)).filterMap
    (fun k => (depsLookupFirst deps k).map (fun v => (k, v)))

/-! ## The per-token install step (install sub-command)

Translated from the body of the `installDeps` loop in `installPackages`
(src/src/core.ts, final iteration), for a non-LinkSpec token.  The
token has already been split by `parseDep` into a name and an optional
range; the range text corresponds to a structured `Range`.  The
versions printed by `npm view` are passed in as a list, as the
subprocess returns them (ascending). -/

/-- The text recorded into a manifest dependency section. -/
inductive VersionValue where
  | plain (v : Version)
  | caretOf (v : Version)
  | rangeOf (r : Range)
deriving DecidableEq, Repr

/-- Outcome of processing one install token. -/
inductive InstallStepResult where
  | linkedStore (exact : Version) (recorded : VersionValue)
  | linkedAfterNpmView (exact : Version) (recorded : VersionValue)
  | queuedNew (recorded : VersionValue)
  | failed (msg : String)
deriving DecidableEq, Repr

/-- Translated from the non-LinkSpec branch of the `installDeps` loop:
try the store first with `maxSatisfying(storeVersions, range or '*')`;
on a hit, link and record the bare exact version.  Otherwise consult
`npm view`: link the newest npm version already present in the store,
or queue the package as a new dependency, recording the user's range
or `^<exact>` when none was given. -/
def installDepStep (storeVersions : List Version) (npmVersions : List Version)
    (userRange : Option Range) : InstallStepResult :=
  match maxSatisfying storeVersions (userRange.getD Range.star) with
  | some exactVersion => .linkedStore exactVersion (.plain exactVersion)
  | none =>
    match npmVersions.reverse with
    | [] => .failed "No versions found"
    | first :: rest =>
      match (first :: rest).find? (fun v => storeVersions.contains v) with
      | some exactVersion =>
        .linkedAfterNpmView exactVersion
          (match userRange with
           | some r => .rangeOf r
           | none => .caretOf exactVersion)
      | none =>
        .queuedNew
          (match userRange with
           | some r => .rangeOf r
           | none => .caretOf first)

/-! ## The uninstall pass

Translated from the `uninstallDeps` branch of `installPackages` and
from `uninstallDep` (src/src/core.ts), for a run whose install token
lists are empty (so `hasUpdatedPackageJson` starts out false and the
manifest is written back exactly when some key was deleted).  The
project state carries the manifest sections as ordered key/value
lists (JavaScript objects preserve insertion order), the entry names
present under `node_modules/`, and the store content, which the
uninstall pass never touches. -/

/-- The manifest fields the uninstall pass reads and writes. -/
structure PackageJsonFile where
  dependencies : Option (List (String × String))
  devDependencies : Option (List (String × String))
deriving DecidableEq, Repr

/-- Project-visible state of one run. -/
structure ProjectState where
  manifest : PackageJsonFile
  nodeModules : List String
  store : List (String × String)
deriving DecidableEq, Repr

/-- JavaScript `name in section`. -/
def sectionHasKey (sec : List (String × String)) (name : String) : Bool :=
  sec.any (fun kv => decide (kv.1 = name))

/-- JavaScript `delete section[name]`: drop the key, keeping the
order of the remaining keys. -/
def sectionDeleteKey (sec : List (String × String)) (name : String) :
    List (String × String) :=
  sec.filter (fun kv => decide (kv.1 ≠ name))

/-- Translated from `uninstallDep`: `rmSync(join(nodeModulesDir, name),
{recursive: true, force: true})` — the entry disappears, recursively,
and a missing entry is not an error (the function is total). -/
def uninstallDepFs (nodeModules : List String) (name : String) : List String :=
  nodeModules.filter (fun e => decide (e ≠ name))

/-- One uninstall token after parsing: remove the `node_modules` entry
and delete the key from each section where it is present, reporting
whether any section changed. -/
def uninstallDepStep (st : ProjectState) (name : String) : ProjectState × Bool :=
  let nm := uninstallDepFs st.nodeModules name
  let depsResult : Option (List (String × String)) × Bool :=
    match st.manifest.dependencies with
    | none => (none, false)
    | some sec =>
      if sectionHasKey sec name then (some (sectionDeleteKey sec name), true)
      else (some sec, false)
  let devResult : Option (List (String × String)) × Bool :=
    match st.manifest.devDependencies with
    | none => (none, false)
    | some sec =>
      if sectionHasKey sec name then (some (sectionDeleteKey sec name), true)
      else (some sec, false)
  (⟨⟨depsResult.1, devResult.1⟩, nm, st.store⟩, depsResult.2 || devResult.2)

/-- The uninstall loop over the raw tokens: each is parsed with
`parseDep` (a parse failure aborts the run, as the thrown error
does), then processed by `uninstallDepStep`; the Boolean accumulates
`hasUpdatedPackageJson`, which decides whether `package.json` is
rewritten at the end of the loop. -/
def uninstallPackages (st : ProjectState) (wrote : Bool) :
    List String → Except String (ProjectState × Bool)
  | [] => .ok (st, wrote)
  | tok :: rest =>
    match parseDep tok with
    | .error e => .error e
    | .ok (name, _) =>
      let r := uninstallDepStep st name
      uninstallPackages r.1 (wrote || r.2) rest

/-- Presence of a name in either manifest section. -/
def manifestHasName (m : PackageJsonFile) (name : String) : Bool :=
  sectionHasKey (m.dependencies.getD []) name ||
    sectionHasKey (m.devDependencies.getD []) name

/-! ## Symbolic-link creation -/

/-- A filesystem entry for the link model. -/
inductive FsNode where
  | dir
  | link (target : String)
deriving DecidableEq, Repr

/-- Does a path exist in the modelled filesystem? -/
def fsHas (fs : List (String × FsNode)) (p : String) : Bool :=
  fs.any (fun e => decide (e.1 = p))

/-- The `symlinkSync` primitive: fails with `EEXIST` when the
destination path already exists, otherwise records the new link. -/
def symlinkSyncM (fs : List (String × FsNode)) (src dest : String) :
    Except String (List (String × FsNode)) :=
  if fsHas fs dest then .error "EEXIST" else .ok ((dest, .link src) :: fs)

/-- Translated from `makeSymbolicLink` in src/src/core.ts: call
`symlinkSync` and swallow exactly the `EEXIST` error, leaving the
filesystem as it was; every other error propagates. -/
def makeSymbolicLink (fs : List (String × FsNode)) (src dest : String) :
    Except String (List (String × FsNode)) :=
  match symlinkSyncM fs src dest with
  | .ok fs2 => .ok fs2
  | .error code => if code = "EEXIST" then .ok fs else .error code

/-! ## The `mv` subprocess wrappers -/

/-- Outcome of running the `mv` subprocess. -/
inductive ExecOutcome where
  | success
  | failure (message : String)
deriving DecidableEq, Repr

/-- The error text that marks a concurrent-creation race. -/
def dirNotEmpty : String := "Directory not empty"

/-- Translated from `mv` in src/src/core.ts (final iteration):
`execSync(cmd)` with no error handling, so every failure of the
subprocess is thrown to the caller. -/
def mvSyncOutcome (r : ExecOutcome) : Except String Unit :=
  match r with
  | .success => .ok ()
  | .failure msg => .error msg

/-- Translated from `mv` in the asynchronous draft (part_002): a
failure whose message contains `Directory not empty` is nulled out and
treated as success; any other failure is reported as an `MvError`. -/
def mvAsyncError (r : ExecOutcome) : Option String :=
  match r with
  | .success => none
  | .failure msg => if strIncludes msg dirNotEmpty then none else some msg

/-! ## Executable-shim permission handling -/

/-- A bin target file: whether `accessSync(file, X_OK)` succeeds, the
content bytes, and the permission bits. -/
structure BinFile where
  executable : Bool
  content : List Nat
  mode : Nat
deriving DecidableEq, Repr

/-- The interpreter line written in front of shim targets:
`Buffer.from('#!' + '/usr/bin/env node' + EOL)`. -/
def shebangBytes : List Nat :=
  ("#!/usr/bin/env node".toList.map Char.toNat) ++ [10]

/-- Its first byte (the `#` character). -/
def shebangHead : Nat := shebangBytes.headD 0

/-- Translated from `setBinPermission` in src/src/core.ts: skip files
already processed in this run; skip files that are already executable;
otherwise read the first byte, rewrite the file through a temporary
file to start with the interpreter line when the first byte is not
`#`, and set mode 0o755 (493). -/
def setBinPermission (cache : List String) (file : String) (f : BinFile) :
    List String × BinFile :=
  if cache.contains file then (cache, f)
  else
    let cache2 := file :: cache
    if f.executable then (cache2, f)
    else
      let firstByte := f.content.headD 0
      let f2 :=
        if firstByte ≠ shebangHead then { f with content := shebangBytes ++ f.content }
        else f
      (cache2, { f2 with executable := true, mode := 493 })

/-! ## The absorb walk (`collectNodeModules` / `collectPackage`)

Translated from the closures inside `installPackages`
(src/src/core.ts).  The filesystem visible to the walk is described up
front: canonical paths are drawn from `Fin n`, `realpath` resolves
symlinks, `listing` is `readdirSync` of a directory (entry name and
the entry's path), and each package directory carries its `lstat`
symlink flag, its manifest `name`/`version`, and its optional nested
`node_modules` directory.  The walk threads the mutable run state:
`collectedNodeModules`, the two version indexes, the set of store keys
on disk, and the scratch directories deleted or moved so far.  Fuel
makes the recursion well-defined; `none` means the fuel ran out, and
the termination theorem shows a fuel budget computed from the number
of unvisited canonical paths always suffices, cycles included. -/

/-- Static description of the scratch filesystem for the absorb walk. -/
structure AbsorbFS (n : Nat) where
  realpath : Fin n → Fin n
  listing : Fin n → List (String × Fin n)
  isLink : Fin n → Bool
  pkgName : Fin n → Option String
  pkgVersion : Fin n → Option String
  linkedDepDirs : Finset (Fin n)
  hasNM : Fin n → Bool
  nmDir : Fin n → Fin n

/-- Mutable state threaded through the absorb walk. -/
structure AbsorbSt (n : Nat) where
  collected : Finset (Fin n)
  storeIdx : List (String × String)
  usedIdx : List (String × String)
  store : List String
  removed : List (Fin n)
  moved : List (Fin n)

/-- The package directories scanned by one `collectNodeModules` level:
dot entries are skipped and an `@org` entry is descended one level, as
in the two nested `readdirSync` loops of the source. -/
def expandEntries {n : Nat} (fs : AbsorbFS n) (dir : Fin n) : List (Fin n) :=
  (fs.listing dir).flatMap (fun e =>
    if jsStartsWithChar '.' e.1 then []
    else if jsStartsWithChar '@' e.1 then (fs.listing e.2).map Prod.snd
    else [e.2])

/-- Tail of `collectPackage` after the nested recursion: if the store
already holds the key the scratch copy is deleted, otherwise it is
moved into the store. -/
def storePhase {n : Nat} (p : Fin n) (key : String) (st : AbsorbSt n) : AbsorbSt n :=
  if key ∈ st.store then { st with removed := p :: st.removed }
  else { st with moved := p :: st.moved, store := key :: st.store }

mutual

/-- Translated from `collectNodeModules`: remember the canonical path
of the modules directory, return at once on a second visit, otherwise
collect every package entry. -/
def collectNodeModules {n : Nat} (fs : AbsorbFS n) (fuel : Nat) (st : AbsorbSt n)
    (dir : Fin n) : Option (Except String (AbsorbSt n)) :=
  match fuel with
  | 0 => none
  | fuel + 1 =>
    let r := fs.realpath dir
    if r ∈ st.collected then some (.ok st)
    else goEntries fs fuel { st with collected := insert r st.collected }
      (expandEntries fs dir)
termination_by (fuel, 0)

/-- The loop over the package entries of one modules directory. -/
def goEntries {n : Nat} (fs : AbsorbFS n) (fuel : Nat) (st : AbsorbSt n) :
    List (Fin n) → Option (Except String (AbsorbSt n))
  | [] => some (.ok st)
  | p :: rest =>
    match collectPackage fs fuel st p with
    | none => none
    | some (.error e) => some (.error e)
    | some (.ok st2) => goEntries fs fuel st2 rest
termination_by l => (fuel, l.length + 1)

/-- Translated from `collectPackage`: a symlink entry returns at once;
a missing manifest name or version is fatal; the used-version index is
updated, directly linked package directories are skipped, the store
index is updated, the nested `node_modules` is collected first, and
finally the directory is deleted (key already in the store) or moved
into the store. -/
def collectPackage {n : Nat} (fs : AbsorbFS n) (fuel : Nat) (st : AbsorbSt n)
    (p : Fin n) : Option (Except String (AbsorbSt n)) :=
  match fuel with
  | 0 => none
  | fuel + 1 =>
    if fs.isLink p then some (.ok st)
    else
      match fs.pkgName p with
      | none => some (.error "missing package name")
      | some name =>
        match fs.pkgVersion p with
        | none => some (.error "missing package version")
        | some version =>
          let st1 := { st with usedIdx := (name, version) :: st.usedIdx }
          if fs.realpath p ∈ fs.linkedDepDirs then some (.ok st1)
          else
            let st2 := { st1 with storeIdx := (name, version) :: st1.storeIdx }
            if fs.hasNM p then
              match collectNodeModules fs fuel st2 (fs.nmDir p) with
              | none => none
              | some (.error e) => some (.error e)
              | some (.ok st3) => some (.ok (storePhase p (name ++ "@" ++ version) st3))
            else some (.ok (storePhase p (name ++ "@" ++ version) st2))
termination_by (fuel, 0)

end

/-! ## The transitive link pass (`linkDeps` / `linkDep`)

Translated from the closures of the same names.  A dependency entry is
either a LinkSpec (linked directly, no recursion), a range with no
matching store version (fatal), or a resolved store package directory
whose own manifest may carry a `dependencies` section to recurse
into.  The walk threads the `linkedDeps` set of canonical package
paths. -/

/-- One dependency entry as seen by `linkDep`. -/
inductive LinkTarget (n : Nat) where
  | linkSpec
  | unresolved
  | resolved (d : Fin n)

/-- Static description of the store/package graph for the link pass. -/
structure LinkFS (n : Nat) where
  realpath : Fin n → Fin n
  pkgDeps : Fin n → Option (List (LinkTarget n))

mutual

/-- Translated from `linkDeps`: remember the canonical package path,
return on a second visit, otherwise link every dependency entry. -/
def linkDeps {n : Nat} (fs : LinkFS n) (fuel : Nat) (linked : Finset (Fin n))
    (p : Fin n) (deps : List (LinkTarget n)) :
    Option (Except String (Finset (Fin n))) :=
  match fuel with
  | 0 => none
  | fuel + 1 =>
    let r := fs.realpath p
    if r ∈ linked then some (.ok linked)
    else goLinks fs fuel (insert r linked) deps
termination_by (fuel, 0)

/-- The loop over one package's dependency entries. -/
def goLinks {n : Nat} (fs : LinkFS n) (fuel : Nat) (linked : Finset (Fin n)) :
    List (LinkTarget n) → Option (Except String (Finset (Fin n)))
  | [] => some (.ok linked)
  | t :: rest =>
    match linkDep fs fuel linked t with
    | none => none
    | some (.error e) => some (.error e)
    | some (.ok l2) => goLinks fs fuel l2 rest
termination_by l => (fuel, l.length + 1)

/-- Translated from `linkDep`: LinkSpecs do not recurse, an
unresolvable range throws `missing package`, and a resolved store
directory recurses into its manifest dependencies when present. -/
def linkDep {n : Nat} (fs : LinkFS n) (fuel : Nat) (linked : Finset (Fin n))
    (t : LinkTarget n) : Option (Except String (Finset (Fin n))) :=
  match fuel with
  | 0 => none
  | fuel + 1 =>
    match t with
    | .linkSpec => some (.ok linked)
    | .unresolved => some (.error "missing package")
    | .resolved d =>
      match fs.pkgDeps d with
      | none => some (.ok linked)
      | some ds => linkDeps fs fuel linked d ds
termination_by (fuel, 0)

end

/-! ## The peer-dependency pass (`linkPeerDeps`)

Translated from the closure of the same name: a failing `realpath` is
caught and the walk returns; the canonical path of the modules
directory is remembered and a second visit returns at once; otherwise
the pass recurses into the `node_modules` directory of every package
linked from this directory. -/

/-- Static description for the peer pass. -/
structure PeerFS (n : Nat) where
  realpathOk : Fin n → Bool
  realpath : Fin n → Fin n
  children : Fin n → List (Fin n)

mutual

/-- Translated from `linkPeerDeps`. -/
def linkPeerDeps {n : Nat} (fs : PeerFS n) (fuel : Nat) (visited : Finset (Fin n))
    (d : Fin n) : Option (Finset (Fin n)) :=
  match fuel with
  | 0 => none
  | fuel + 1 =>
    if fs.realpathOk d = false then some visited
    else
      let r := fs.realpath d
      if r ∈ visited then some visited
      else goPeers fs fuel (insert r visited) (fs.children d)
termination_by (fuel, 0)

/-- The loop over the dependency modules directories of one level. -/
def goPeers {n : Nat} (fs : PeerFS n) (fuel : Nat) (visited : Finset (Fin n)) :
    List (Fin n) → Option (Finset (Fin n))
  | [] => some visited
  | c :: rest =>
    match linkPeerDeps fs fuel visited c with
    | none => none
    | some v2 => goPeers fs fuel v2 rest
termination_by l => (fuel, l.length + 1)

end

/-- The number of canonical paths not yet visited: the termination
measure of every walk. -/
def unvisited {n : Nat} (s : Finset (Fin n)) : Nat := sᶜ.card

-- ===== THEOREMS =====

theorem max_eq_if (m v : Version) : max m v = if m < v then v else m := by
  rcases lt_or_le m v with h | h
  · simp [max_eq_right h.le, h]
  · simp [max_eq_left h, not_lt.mpr h]

theorem ofOpt_maxStep (r : Range) (acc : Option Version) (v : Version) :
    ofOpt (maxStep r acc v) =
      if satisfies v r then ofOpt acc ⊔ (v : WithBot Version) else ofOpt acc := by
  by_cases hp : satisfies v r
  · cases acc with
    | none => simp [maxStep, ofOpt, hp]
    | some m =>
      have hcoe : ofOpt (maxStep r (some m) v) =
          ((if m < v then v else m : Version) : WithBot Version) := by
        simp only [maxStep, hp, if_true]
        split <;> simp [ofOpt]
      have hm : ofOpt (some m) = (m : WithBot Version) := rfl
      rw [hcoe, hm, ← WithBot.coe_sup, sup_eq_max, max_eq_if]
      simp [hp]
  · cases acc <;> simp [maxStep, ofOpt, hp]

theorem foldl_maxStep_maximum (r : Range) (l : List Version) :
    ∀ acc : Option Version,
      ofOpt (l.foldl (maxStep r) acc) =
        ofOpt acc ⊔ (l.filter (fun v => satisfies v r)).maximum := by
  induction l with
  | nil => intro acc; simp [List.maximum_nil]
  | cons v vs ih =>
    intro acc
    by_cases hp : satisfies v r
    · simp only [List.foldl_cons, ih, ofOpt_maxStep, hp, if_true,
        List.filter_cons, List.maximum_cons, sup_assoc]
    · simp only [List.foldl_cons, ih, ofOpt_maxStep, hp, if_false,
        List.filter_cons, Bool.false_eq_true]

theorem maxSatisfying_maximum (l : List Version) (r : Range) :
    ofOpt (maxSatisfying l r) = (l.filter (fun v => satisfies v r)).maximum := by
  rw [maxSatisfying, foldl_maxStep_maximum]
  simp [ofOpt]

theorem ofOpt_eq_coe (o : Option Version) (m : Version) :
    ofOpt o = (m : WithBot Version) ↔ o = some m := by
  cases o <;> simp [ofOpt]

theorem ofOpt_eq_bot (o : Option Version) : ofOpt o = ⊥ ↔ o = none := by
  cases o <;> simp [ofOpt]

theorem findLatestMatch_eq (r : Range) (V : List Version) :
    findLatestMatch r V = maxSatisfying V (normalizeLatest r) := rfl

/-- C1: for every finite candidate list `V` and range `r`, the version
chosen by `findLatestMatch` is exactly the semver-maximum element of
the subset of `V` satisfying `r`, it is `none` exactly when that subset
is empty, and the range `latest` is normalized to `*` before
matching. -/
theorem findLatestMatch_is_semver_max (r : Range) (V : List Version) :
    (∀ m : Version, findLatestMatch r V = some m ↔
        m ∈ V ∧ satisfies m (normalizeLatest r) = true ∧
          ∀ v ∈ V, satisfies v (normalizeLatest r) = true → v ≤ m) ∧
    (findLatestMatch r V = none ↔
      ∀ v ∈ V, satisfies v (normalizeLatest r) = false) ∧
    findLatestMatch Range.latest V = findLatestMatch Range.star V := by
  refine ⟨?_, ?_, ?_⟩
  · intro m
    rw [findLatestMatch_eq, ← ofOpt_eq_coe, maxSatisfying_maximum,
      List.maximum_eq_coe_iff]
    constructor
    · rintro ⟨hmem, hmax⟩
      rw [List.mem_filter] at hmem
      refine ⟨hmem.1, hmem.2, ?_⟩
      intro v hv hsat
      exact hmax v (List.mem_filter.mpr ⟨hv, hsat⟩)
    · rintro ⟨hmem, hsat, hmax⟩
      refine ⟨List.mem_filter.mpr ⟨hmem, hsat⟩, ?_⟩
      intro v hv
      rw [List.mem_filter] at hv
      exact hmax v hv.1 hv.2
  · rw [findLatestMatch_eq, ← ofOpt_eq_bot, maxSatisfying_maximum,
      List.maximum_eq_bot, List.filter_eq_nil_iff]
    simp
  · simp [findLatestMatch_eq, normalizeLatest]

/-- Closed instance of the C1 theorem at a concrete range and
candidate list. -/
theorem findLatestMatch_is_semver_max_witness :
    findLatestMatch (Range.caret ⟨1, 0, 0, []⟩) [⟨1, 2, 3, []⟩] =
      some ⟨1, 2, 3, []⟩ ∧
    findLatestMatch (Range.exact ⟨2, 0, 0, []⟩) [⟨1, 2, 3, []⟩] = none := by
  constructor
  · exact ((findLatestMatch_is_semver_max (Range.caret ⟨1, 0, 0, []⟩)
      [⟨1, 2, 3, []⟩]).1 ⟨1, 2, 3, []⟩).mpr (by decide)
  · exact (findLatestMatch_is_semver_max (Range.exact ⟨2, 0, 0, []⟩)
      [⟨1, 2, 3, []⟩]).2.1.mpr (by decide)

/-- C8: a symlink creation whose destination already exists swallows
the `EEXIST` error and leaves the existing entry in place, so
re-linking an already-present package neither errors nor replaces the
link; a fresh destination records the new link. -/
theorem makeSymbolicLink_eexist (fs : List (String × FsNode)) (src dest : String) :
    (fsHas fs dest = true → makeSymbolicLink fs src dest = .ok fs) ∧
    (fsHas fs dest = false →
      makeSymbolicLink fs src dest = .ok ((dest, .link src) :: fs)) := by
  constructor <;> intro h <;> simp [makeSymbolicLink, symlinkSyncM, h]

/-- Closed instance of the C8 theorem: reinstalling over an existing
link leaves it untouched and reports success. -/
theorem makeSymbolicLink_eexist_witness :
    makeSymbolicLink [("node_modules/foo", .link "store/foo@1.0.0")]
        "store/foo@2.0.0" "node_modules/foo" =
      .ok [("node_modules/foo", .link "store/foo@1.0.0")] :=
  (makeSymbolicLink_eexist _ _ _).1 (by decide)

/-- C3 counterexample: in the final synchronous implementation
(src/src/core.ts), a `mv` failure whose error output contains
`Directory not empty` is not ignored — `execSync` throws it to the
caller, so the absorption is aborted rather than continuing. -/
theorem mvSync_dne_is_fatal :
    strIncludes "mv: cannot move a to b: Directory not empty" dirNotEmpty = true ∧
    mvSyncOutcome (.failure "mv: cannot move a to b: Directory not empty") =
      .error "mv: cannot move a to b: Directory not empty" := by
  exact ⟨by decide, rfl⟩

/-- C3 amended: only the asynchronous draft's `mv` wrapper ignores
failures whose message contains `Directory not empty` (treating every
other failure as fatal); the final synchronous `mv` propagates every
failure, that one included. -/
theorem mv_error_handling (msg : String) :
    mvSyncOutcome (.failure msg) = .error msg ∧
    mvAsyncError .success = none ∧
    (strIncludes msg dirNotEmpty = true → mvAsyncError (.failure msg) = none) ∧
    (strIncludes msg dirNotEmpty = false → mvAsyncError (.failure msg) = some msg) := by
  refine ⟨rfl, rfl, ?_, ?_⟩ <;> intro h <;> simp [mvAsyncError, h]

/-- Closed instance of the C3 amended theorem at two concrete error
messages. -/
theorem mv_error_handling_witness :
    mvAsyncError (.failure "mv: cannot move a to b: Directory not empty") = none ∧
    mvAsyncError (.failure "mv: Permission denied") =
      some "mv: Permission denied" := by
  constructor
  · exact (mv_error_handling "mv: cannot move a to b: Directory not empty").2.2.1
      (by decide)
  · exact (mv_error_handling "mv: Permission denied").2.2.2 (by decide)

/-- C6 counterexample: a bin target that is already executable is
returned untouched even though its first byte is not `#` — neither the
interpreter-line rewrite nor the chmod to 0o755 claimed for every
non-`#` target happens. -/
theorem setBinPermission_executable_not_rewritten :
    setBinPermission [] "cli.js" ⟨true, [120], 420⟩ =
      (["cli.js"], ⟨true, [120], 420⟩) ∧
    setBinPermission [] "cli.js" ⟨true, [120], 420⟩ ≠
      (["cli.js"], ⟨true, shebangBytes ++ [120], 493⟩) := by
  constructor <;> decide

/-- C6 amended: the shim handler processes each target at most once
per run; a target that already passes the `X_OK` access check is left
untouched; otherwise, when the first byte is not `#` the content is
rewritten to the interpreter line followed by the original content and
the mode is set to 0o755, and when the first byte is `#` only the mode
is set. -/
theorem setBinPermission_spec (cache : List String) (file : String) (f : BinFile) :
    (file ∈ cache → setBinPermission cache file f = (cache, f)) ∧
    (file ∉ cache → f.executable = true →
      setBinPermission cache file f = (file :: cache, f)) ∧
    (file ∉ cache → f.executable = false →
      f.content.headD 0 ≠ shebangHead →
      setBinPermission cache file f =
        (file :: cache, ⟨true, shebangBytes ++ f.content, 493⟩)) ∧
    (file ∉ cache → f.executable = false →
      f.content.headD 0 = shebangHead →
      setBinPermission cache file f = (file :: cache, ⟨true, f.content, 493⟩)) := by
  rcases f with ⟨e, c, m⟩
  refine ⟨?_, ?_, ?_, ?_⟩
  · intro h1
    simp [setBinPermission, h1]
  · intro h1 h2
    simp only at h2
    simp [setBinPermission, h1, h2]
  · intro h1 h2 h3
    simp only at h2
    simp only [List.headD_eq_head?_getD] at h3
    simp [setBinPermission, h1, h2, h3]
  · intro h1 h2 h3
    simp only at h2
    simp only [List.headD_eq_head?_getD] at h3
    simp [setBinPermission, h1, h2, h3]

/-- Closed instance of the C6 amended theorem: a fresh
non-executable target is rewritten and made executable, and a cached
target is skipped. -/
theorem setBinPermission_spec_witness :
    setBinPermission [] "b" ⟨false, [120], 420⟩ =
      (["b"], ⟨true, shebangBytes ++ [120], 493⟩) ∧
    setBinPermission ["b"] "b" ⟨false, [120], 420⟩ =
      (["b"], ⟨false, [120], 420⟩) := by
  constructor
  · exact (setBinPermission_spec [] "b" ⟨false, [120], 420⟩).2.2.1
      (by decide) (by decide) (by decide)
  · exact (setBinPermission_spec ["b"] "b" ⟨false, [120], 420⟩).1 (by decide)

/-- C4 counterexample: an install token with no explicit range whose
name has a store match records the bare exact version, not
`^<version>` as the claim states. -/
theorem installDepStep_records_bare_version :
    installDepStep [⟨1, 0, 0, []⟩] [] none =
      .linkedStore ⟨1, 0, 0, []⟩ (.plain ⟨1, 0, 0, []⟩) ∧
    installDepStep [⟨1, 0, 0, []⟩] [] none ≠
      .linkedStore ⟨1, 0, 0, []⟩ (.caretOf ⟨1, 0, 0, []⟩) := by
  constructor <;> decide

/-- C4 amended: when the token's name has a store version satisfying
its range, the installer links that store version immediately and
records the bare exact resolved version into the manifest section,
whether or not the user supplied an explicit range. -/
theorem installDepStep_store_match (storeVersions npmVersions : List Version)
    (userRange : Option Range) (ev : Version) :
    maxSatisfying storeVersions (userRange.getD Range.star) = some ev →
    installDepStep storeVersions npmVersions userRange =
      .linkedStore ev (.plain ev) := by
  intro h
  simp [installDepStep, h]

/-- Closed instance of the C4 amended theorem with an explicit user
range. -/
theorem installDepStep_store_match_witness :
    installDepStep [⟨2, 1, 0, []⟩] [] (some (Range.tilde ⟨2, 1, 0, []⟩)) =
      .linkedStore ⟨2, 1, 0, []⟩ (.plain ⟨2, 1, 0, []⟩) :=
  installDepStep_store_match _ _ _ _ (by decide)

theorem mkToList (s : String) : String.mk s.toList = s := rfl

theorem jsCharsSplit_of_not_mem (sep : Char) (l : List Char) (h : sep ∉ l) :
    jsCharsSplit sep l = [l] := by
  induction l with
  | nil => rfl
  | cons c rest ih =>
    have hc : ¬ c = sep := by rintro rfl; exact h (List.mem_cons_self _ _)
    have hr : sep ∉ rest := fun hm => h (List.mem_cons_of_mem _ hm)
    simp [jsCharsSplit, hc, ih hr]

theorem jsSplit_of_not_mem (sep : Char) (s : String) (h : sep ∉ s.toList) :
    jsSplit sep s = [s] := by
  unfold jsSplit
  rw [jsCharsSplit_of_not_mem sep s.toList h]
  rfl

theorem idxHas_add_self (idx : StoreIndex) (name : String) (v : Option String) :
    idxHas (getVersionsAdd idx name v) name v := by
  induction idx with
  | nil => exact ⟨[v], by simp [getVersionsAdd, idxFind], by simp⟩
  | cons e rest ih =>
    obtain ⟨n, vs⟩ := e
    by_cases hn : n = name
    · refine ⟨if v ∈ vs then vs else vs ++ [v], ?_, ?_⟩
      · simp [getVersionsAdd, idxFind, hn]
      · split <;> simp_all
    · obtain ⟨vs2, hfind, hmem⟩ := ih
      exact ⟨vs2, by simp [getVersionsAdd, idxFind, hn, hfind], hmem⟩

theorem idxHas_add_mono (idx : StoreIndex) (name : String) (v : Option String)
    (n2 : String) (v2 : Option String) :
    idxHas idx name v → idxHas (getVersionsAdd idx n2 v2) name v := by
  induction idx with
  | nil => rintro ⟨vs, hfind, _⟩; simp [idxFind] at hfind
  | cons e rest ih =>
    obtain ⟨n, vs⟩ := e
    rintro ⟨vs2, hfind, hmem⟩
    simp only [idxFind] at hfind
    by_cases hn : n = name
    · rw [if_pos hn] at hfind
      obtain rfl : vs = vs2 := by simpa using hfind
      by_cases hn2 : n = n2
      · refine ⟨if v2 ∈ vs then vs else vs ++ [v2], ?_, ?_⟩
        · simp only [getVersionsAdd]
          rw [if_pos hn2]
          simp only [idxFind]
          rw [if_pos hn]
        · by_cases hv2 : v2 ∈ vs <;> simp [hv2, hmem]
      · refine ⟨vs, ?_, hmem⟩
        simp only [getVersionsAdd]
        rw [if_neg hn2]
        simp only [idxFind]
        rw [if_pos hn]
    · rw [if_neg hn] at hfind
      by_cases hn2 : n = n2
      · refine ⟨vs2, ?_, hmem⟩
        simp only [getVersionsAdd]
        rw [if_pos hn2]
        simp only [idxFind]
        rw [if_neg (hn2 ▸ hn)]
        exact hfind
      · obtain ⟨vs3, hfind3, hmem3⟩ := ih ⟨vs2, hfind, hmem⟩
        refine ⟨vs3, ?_, hmem3⟩
        simp only [getVersionsAdd]
        rw [if_neg hn2]
        simp only [idxFind]
        rw [if_neg hn]
        exact hfind3

theorem idxHas_foldl_mono {α : Type} (name : String) (v : Option String)
    (f : StoreIndex → α → StoreIndex)
    (hf : ∀ idx a, idxHas idx name v → idxHas (f idx a) name v) :
    ∀ (l : List α) (idx : StoreIndex),
      idxHas idx name v → idxHas (l.foldl f idx) name v := by
  intro l
  induction l with
  | nil => intro idx h; exact h
  | cons a as ih => intro idx h; exact ih _ (hf idx a h)

theorem idxHas_scanChild_mono (idx : StoreIndex) (c : String × List String)
    (name : String) (v : Option String) :
    idxHas idx name v → idxHas (scanChild idx c) name v := by
  intro h
  unfold scanChild
  split
  · exact idxHas_add_mono _ _ _ _ _ h
  · exact idxHas_foldl_mono name v _
      (fun idx kid hh => idxHas_add_mono _ _ _ _ _ hh) c.2 idx h

theorem jsStartsWithChar_of_not_mem (c : Char) (s : String) (h : c ∉ s.toList) :
    jsStartsWithChar c s = false := by
  unfold jsStartsWithChar
  cases hl : s.toList with
  | nil => rfl
  | cons d t =>
    have hd : ¬ d = c := by
      rintro rfl
      exact h (hl ▸ List.mem_cons_self _ _)
    simp [hd]

theorem scanChild_adds_malformed (idx : StoreIndex) (name : String)
    (kids : List String) (h : '@' ∉ name.toList) :
    idxHas (scanChild idx (name, kids)) name none := by
  have hs : jsStartsWithChar '@' name = false := jsStartsWithChar_of_not_mem _ _ h
  have hsplit : jsSplit '@' name = [name] := jsSplit_of_not_mem _ _ h
  unfold scanChild
  simp only [hs, hsplit]
  simpa using idxHas_add_self idx name none

/-- C7 counterexample: a store child whose name contains no `@` is not
skipped — the scan records an entry mapping the whole child name to the
JavaScript `undefined` version; likewise the direct-fetch draft records
an empty version part instead of skipping it. -/
theorem scanStorePackages_adds_malformed_entry :
    idxFind (scanStorePackages [("foo", [])]) "foo" = some [none] ∧
    idxFind (populateContext [("bar@", 1)]) "bar" = some [some ""] := by
  constructor <;> decide

/-- C7 amended: the scan never fails on a malformed child, but it does
not skip it either: a direct store child whose name contains no `@` is
recorded in the index under its full name with the undefined version. -/
theorem scanStorePackages_malformed (listing : List (String × List String))
    (name : String) (kids : List String) :
    (name, kids) ∈ listing → '@' ∉ name.toList →
    idxHas (scanStorePackages listing) name none := by
  suffices h : ∀ (listing : List (String × List String)) (idx : StoreIndex),
      (name, kids) ∈ listing → '@' ∉ name.toList →
      idxHas (listing.foldl scanChild idx) name none by
    intro hmem hnot
    exact h listing [] hmem hnot
  intro listing
  induction listing with
  | nil => intro idx hmem; simp at hmem
  | cons c rest ih =>
    intro idx hmem hnot
    simp only [List.foldl_cons]
    rcases List.mem_cons.mp hmem with hc | hmem2
    · subst hc
      exact idxHas_foldl_mono name none scanChild
        (fun idx c hh => idxHas_scanChild_mono idx c name none hh) rest _
        (scanChild_adds_malformed idx name kids hnot)
    · exact ih _ hmem2 hnot

/-- Closed instance of the C7 amended theorem at a single malformed
store child. -/
theorem scanStorePackages_malformed_witness :
    idxHas (scanStorePackages [("foo", [])]) "foo" none :=
  scanStorePackages_malformed [("foo", [])] "foo" [] (by decide) (by decide)

theorem sectionDeleteKey_of_not_has (sec : List (String × String)) (name : String)
    (h : sectionHasKey sec name = false) :
    sectionDeleteKey sec name = sec := by
  unfold sectionHasKey at h
  rw [List.any_eq_false] at h
  unfold sectionDeleteKey
  rw [List.filter_eq_self]
  intro kv hkv
  simpa using fun he => by simpa [he] using h kv hkv

theorem uninstallDepStep_store (st : ProjectState) (name : String) :
    (uninstallDepStep st name).1.store = st.store := rfl

theorem uninstallDepStep_nodeModules (st : ProjectState) (name : String) :
    (uninstallDepStep st name).1.nodeModules = uninstallDepFs st.nodeModules name := rfl

theorem uninstallDepStep_deps (st : ProjectState) (name : String) :
    (uninstallDepStep st name).1.manifest.dependencies =
      Option.map (fun sec => sectionDeleteKey sec name) st.manifest.dependencies := by
  rcases st with ⟨⟨d, dd⟩, nm, sto⟩
  cases d with
  | none => rfl
  | some sec =>
    by_cases hh : sectionHasKey sec name
    · simp [uninstallDepStep, hh]
    · simp [uninstallDepStep, hh, sectionDeleteKey_of_not_has sec name (by simpa using hh)]

theorem uninstallDepStep_devDeps (st : ProjectState) (name : String) :
    (uninstallDepStep st name).1.manifest.devDependencies =
      Option.map (fun sec => sectionDeleteKey sec name) st.manifest.devDependencies := by
  rcases st with ⟨⟨d, dd⟩, nm, sto⟩
  cases dd with
  | none => cases d <;> simp [uninstallDepStep]
  | some sec =>
    by_cases hh : sectionHasKey sec name
    · cases d <;> simp [uninstallDepStep, hh]
    · cases d <;>
        simp [uninstallDepStep, hh, sectionDeleteKey_of_not_has sec name (by simpa using hh)]

theorem sectionHasKey_nil (name : String) : sectionHasKey [] name = false := rfl

theorem uninstallDepStep_wrote (st : ProjectState) (name : String) :
    (uninstallDepStep st name).2 = manifestHasName st.manifest name := by
  rcases st with ⟨⟨d, dd⟩, nm, sto⟩
  cases d with
  | none =>
    cases dd with
    | none => simp [uninstallDepStep, manifestHasName, sectionHasKey_nil]
    | some s2 =>
      cases h2 : sectionHasKey s2 name <;>
        simp [uninstallDepStep, manifestHasName, h2, sectionHasKey_nil]
  | some s1 =>
    cases h1 : sectionHasKey s1 name <;>
      cases dd with
      | none => simp [uninstallDepStep, manifestHasName, h1, sectionHasKey_nil]
      | some s2 =>
        cases h2 : sectionHasKey s2 name <;>
          simp [uninstallDepStep, manifestHasName, h1, h2, sectionHasKey_nil]

theorem pkgFileExt (a b : PackageJsonFile) (h1 : a.dependencies = b.dependencies)
    (h2 : a.devDependencies = b.devDependencies) : a = b := by
  cases a
  cases b
  simp only at h1 h2
  simp [h1, h2]

theorem uninstallDepStep_manifest_of_absent (st : ProjectState) (name : String)
    (h : manifestHasName st.manifest name = false) :
    (uninstallDepStep st name).1.manifest = st.manifest := by
  simp only [manifestHasName, Bool.or_eq_false_iff] at h
  have hd := uninstallDepStep_deps st name
  have hdd := uninstallDepStep_devDeps st name
  have hd2 : Option.map (fun sec => sectionDeleteKey sec name) st.manifest.dependencies =
      st.manifest.dependencies := by
    cases hc : st.manifest.dependencies with
    | none => rfl
    | some sec =>
      rw [hc] at h
      simp [sectionDeleteKey_of_not_has sec name (by simpa using h.1)]
  have hdd2 : Option.map (fun sec => sectionDeleteKey sec name)
      st.manifest.devDependencies = st.manifest.devDependencies := by
    cases hc : st.manifest.devDependencies with
    | none => rfl
    | some sec =>
      rw [hc] at h
      simp [sectionDeleteKey_of_not_has sec name (by simpa using h.2)]
  exact pkgFileExt _ _ (hd.trans hd2) (hdd.trans hdd2)

theorem uninstallPackages_store_frame :
    ∀ (toks : List String) (st : ProjectState) (wrote : Bool)
      (out : ProjectState × Bool),
      uninstallPackages st wrote toks = .ok out → out.1.store = st.store := by
  intro toks
  induction toks with
  | nil =>
    intro st wrote out h
    simp only [uninstallPackages] at h
    obtain rfl : (st, wrote) = out := by simpa using h
    rfl
  | cons tok rest ih =>
    intro st wrote out h
    simp only [uninstallPackages] at h
    cases hp : parseDep tok with
    | error e => rw [hp] at h; simp at h
    | ok p =>
      rw [hp] at h
      have := ih _ _ _ h
      rw [this, uninstallDepStep_store]

/-- C5 amended: for every parsed uninstall name, the `node_modules`
entry of that name is removed by a forced recursive unlink, the key is
deleted from both manifest sections with the order of the remaining
keys preserved (the uninstall path does not sort; sorting happens only
on install), the manifest is flagged for rewriting exactly when the
name was present in a section, and the store is left unchanged across
the whole run. -/
theorem uninstallPackages_spec (st : ProjectState) (name : String)
    (toks : List String) (wrote : Bool) :
    ((uninstallDepStep st name).1.nodeModules =
        st.nodeModules.filter (fun e => decide (e ≠ name)) ∧
      name ∉ (uninstallDepStep st name).1.nodeModules ∧
      (uninstallDepStep st name).1.manifest.dependencies =
        Option.map (fun sec => sectionDeleteKey sec name) st.manifest.dependencies ∧
      (uninstallDepStep st name).1.manifest.devDependencies =
        Option.map (fun sec => sectionDeleteKey sec name) st.manifest.devDependencies ∧
      (uninstallDepStep st name).1.store = st.store ∧
      (uninstallDepStep st name).2 = manifestHasName st.manifest name) ∧
    (∀ out : ProjectState × Bool,
      uninstallPackages st wrote toks = .ok out → out.1.store = st.store) := by
  refine ⟨⟨rfl, ?_, uninstallDepStep_deps st name, uninstallDepStep_devDeps st name,
    rfl, uninstallDepStep_wrote st name⟩, ?_⟩
  · rw [uninstallDepStep_nodeModules]
    intro hmem
    simpa using (List.mem_filter.mp hmem).2
  · intro out h
    exact uninstallPackages_store_frame toks st wrote out h

/-- C5 counterexample: a pure uninstall run rewrites the manifest with
the surviving keys in their original order, which is not the sorted
order the claim requires. -/
theorem uninstall_does_not_sort :
    uninstallPackages ⟨⟨some [("c", "1"), ("b", "1"), ("a", "1")], none⟩, ["b"], []⟩
        false ["b"] =
      .ok (⟨⟨some [("c", "1"), ("a", "1")], none⟩, [], []⟩, true) ∧
    sortDeps [("c", "1"), ("a", "1")] = [("a", "1"), ("c", "1")] ∧
    [("a", "1"), ("c", "1")] ≠ [("c", "1"), ("a", "1")] := by
  refine ⟨by rfl, by decide, by decide⟩

/-- Closed instance of the C5 amended theorem at a concrete project
state and uninstall run. -/
theorem uninstallPackages_spec_witness :
    "tar" ∉ (uninstallDepStep
        ⟨⟨some [("tar", "6.0.0")], some [("tar", "6.0.0")]⟩, ["tar"],
          [("tar", "6.0.0")]⟩ "tar").1.nodeModules ∧
    ((⟨⟨some [], some []⟩, [], [("tar", "6.0.0")]⟩ : ProjectState), true).1.store =
      [("tar", "6.0.0")] := by
  constructor
  · exact (uninstallPackages_spec
      ⟨⟨some [("tar", "6.0.0")], some [("tar", "6.0.0")]⟩, ["tar"],
        [("tar", "6.0.0")]⟩ "tar" ["tar"] false).1.2.1
  · exact (uninstallPackages_spec
      ⟨⟨some [("tar", "6.0.0")], some [("tar", "6.0.0")]⟩, ["tar"],
        [("tar", "6.0.0")]⟩ "tar" ["tar"] false).2
      ((⟨⟨some [], some []⟩, [], [("tar", "6.0.0")]⟩ : ProjectState), true) (by rfl)

/-- C10: an uninstall run whose parsed names occur in neither manifest
section (and with no install tokens) succeeds without error — removal
of the possibly-absent `node_modules` entries is forced — and leaves
the manifest unwritten and the store untouched. -/
theorem uninstallPackages_absent_no_write (toks : List String) (st : ProjectState) :
    (∀ tok ∈ toks, ∃ p, parseDep tok = .ok p) →
    (∀ tok ∈ toks, ∀ name ver, parseDep tok = .ok (name, ver) →
      manifestHasName st.manifest name = false) →
    ∃ st2, uninstallPackages st false toks = .ok (st2, false) ∧
      st2.manifest = st.manifest ∧ st2.store = st.store := by
  induction toks generalizing st with
  | nil => intro _ _; exact ⟨st, rfl, rfl, rfl⟩
  | cons tok rest ih =>
    intro hparse habsent
    obtain ⟨⟨name, ver⟩, hp⟩ := hparse tok (List.mem_cons_self _ _)
    have hab : manifestHasName st.manifest name = false :=
      habsent tok (List.mem_cons_self _ _) name ver hp
    have hw : (uninstallDepStep st name).2 = false :=
      (uninstallDepStep_wrote st name).trans hab
    have hman : (uninstallDepStep st name).1.manifest = st.manifest :=
      uninstallDepStep_manifest_of_absent st name hab
    obtain ⟨st2, hrun, hm2, hs2⟩ := ih ((uninstallDepStep st name).1)
      (fun t ht => hparse t (List.mem_cons_of_mem _ ht))
      (fun t ht n v hpv => by
        rw [hman]
        exact habsent t (List.mem_cons_of_mem _ ht) n v hpv)
    refine ⟨st2, ?_, hm2.trans hman, hs2.trans (uninstallDepStep_store st name)⟩
    simp only [uninstallPackages, hp]
    rw [hw]
    simpa using hrun

/-- Closed instance of the C10 theorem: uninstalling a name absent
from both manifest sections does not rewrite the manifest and raises no
error. -/
theorem uninstallPackages_absent_no_write_witness :
    ∃ st2, uninstallPackages ⟨⟨some [("a", "1")], none⟩, ["gone"], []⟩ false
        ["gone"] = .ok (st2, false) ∧
      st2.manifest = ⟨some [("a", "1")], none⟩ ∧ st2.store = [] := by
  have hpc : parseDep "gone" = .ok ("gone", none) := by rfl
  obtain ⟨st2, h1, h2, h3⟩ := uninstallPackages_absent_no_write ["gone"]
    ⟨⟨some [("a", "1")], none⟩, ["gone"], []⟩
    (by
      intro tok htok
      simp only [List.mem_singleton] at htok
      subst htok
      exact ⟨("gone", none), hpc⟩)
    (by
      intro tok htok name ver hp
      simp only [List.mem_singleton] at htok
      subst htok
      rw [hpc] at hp
      obtain ⟨rfl, rfl⟩ : name = "gone" ∧ ver = none := by simpa using hp.symm
      decide)
  exact ⟨st2, h1, h2, h3⟩

/-- C9: during absorption, an entry whose `lstat` reports a symbolic
link makes `collectPackage` return immediately with the state
untouched — it is not moved into the store, not deleted from the
scratch tree, and not added to either index. -/
theorem collectPackage_symlink_frame {n : Nat} (fs : AbsorbFS n) (fuel : Nat)
    (st : AbsorbSt n) (p : Fin n) (h : fs.isLink p = true) :
    collectPackage fs (fuel + 1) st p = some (.ok st) := by
  simp [collectPackage, h]

/-- Closed instance of the C9 theorem on a one-directory filesystem
whose only entry is a symlink. -/
theorem collectPackage_symlink_frame_witness :
    collectPackage
        (AbsorbFS.mk id (fun _ => []) (fun _ => true) (fun _ => none)
          (fun _ => none) ∅ (fun _ => false) id : AbsorbFS 1) 1
        (AbsorbSt.mk ∅ [] [] [] [] []) (0 : Fin 1) =
      some (.ok (AbsorbSt.mk ∅ [] [] [] [] [])) :=
  collectPackage_symlink_frame
    (AbsorbFS.mk id (fun _ => []) (fun _ => true) (fun _ => none)
      (fun _ => none) ∅ (fun _ => false) id : AbsorbFS 1) 0
    (AbsorbSt.mk ∅ [] [] [] [] []) (0 : Fin 1) rfl

theorem unvisited_le_of_subset {n : Nat} {s t : Finset (Fin n)} (h : s ⊆ t) :
    unvisited t ≤ unvisited s :=
  Finset.card_le_card (Finset.compl_subset_compl.mpr h)

theorem unvisited_insert {n : Nat} (s : Finset (Fin n)) (r : Fin n) (h : r ∉ s) :
    unvisited (insert r s) + 1 = unvisited s := by
  unfold unvisited
  rw [Finset.compl_insert, Finset.card_erase_of_mem (Finset.mem_compl.mpr h)]
  have : 0 < sᶜ.card := Finset.card_pos.mpr ⟨r, Finset.mem_compl.mpr h⟩
  omega

theorem absorb_mono {n : Nat} (fs : AbsorbFS n) :
    ∀ fuel : Nat,
      (∀ st dir st2, collectNodeModules fs fuel st dir = some (.ok st2) →
        st.collected ⊆ st2.collected) ∧
      (∀ st p st2, collectPackage fs fuel st p = some (.ok st2) →
        st.collected ⊆ st2.collected) := by
  intro fuel
  induction fuel with
  | zero =>
    constructor
    · intro st dir st2 h
      simp [collectNodeModules] at h
    · intro st p st2 h
      simp [collectPackage] at h
  | succ f ih =>
    have hE : ∀ l st st2, goEntries fs f st l = some (.ok st2) →
        st.collected ⊆ st2.collected := by
      intro l
      induction l with
      | nil =>
        intro st st2 h
        obtain rfl : st = st2 := by simpa [goEntries] using h
        exact subset_rfl
      | cons p rest ihl =>
        intro st st2 h
        simp only [goEntries] at h
        cases hc : collectPackage fs f st p with
        | none => rw [hc] at h; simp at h
        | some r =>
          cases r with
          | error e => rw [hc] at h; simp at h
          | ok st1 =>
            rw [hc] at h
            simp only at h
            exact (ih.2 st p st1 hc).trans (ihl st1 st2 h)
    constructor
    · intro st dir st2 h
      simp only [collectNodeModules] at h
      by_cases hr : fs.realpath dir ∈ st.collected
      · rw [if_pos hr] at h
        obtain rfl : st = st2 := by simpa using h
        exact subset_rfl
      · rw [if_neg hr] at h
        exact (Finset.subset_insert _ _).trans (hE _ _ _ h)
    · intro st p st2 h
      simp only [collectPackage] at h
      by_cases hl : fs.isLink p
      · rw [if_pos hl] at h
        obtain rfl : st = st2 := by simpa using h
        exact subset_rfl
      · rw [if_neg hl] at h
        cases hn : fs.pkgName p with
        | none => rw [hn] at h; simp at h
        | some name =>
          rw [hn] at h
          cases hv : fs.pkgVersion p with
          | none => rw [hv] at h; simp at h
          | some version =>
            rw [hv] at h
            simp only at h
            by_cases hld : fs.realpath p ∈ fs.linkedDepDirs
            · rw [if_pos hld] at h
              obtain rfl : _ = st2 := by simpa using h
              exact subset_rfl
            · rw [if_neg hld] at h
              by_cases hnm : fs.hasNM p
              · rw [if_pos hnm] at h
                cases hc : collectNodeModules fs f
                    { st with
                      usedIdx := (name, version) :: st.usedIdx,
                      storeIdx := (name, version) :: st.storeIdx } (fs.nmDir p) with
                | none => rw [hc] at h; simp at h
                | some r =>
                  cases r with
                  | error e => rw [hc] at h; simp at h
                  | ok st3 =>
                    rw [hc] at h
                    simp only at h
                    obtain rfl : storePhase p (name ++ "@" ++ version) st3 = st2 := by
                      simpa using h
                    have h1 := ih.1 _ _ _ hc
                    simp only at h1
                    have h2 : st3.collected =
                        (storePhase p (name ++ "@" ++ version) st3).collected := by
                      unfold storePhase
                      split <;> rfl
                    exact h2 ▸ h1
              · rw [if_neg hnm] at h
                obtain rfl : storePhase p (name ++ "@" ++ version) _ = st2 := by
                  simpa using h
                have h2 : ∀ s : AbsorbSt n,
                    (storePhase p (name ++ "@" ++ version) s).collected = s.collected := by
                  intro s
                  unfold storePhase
                  split <;> rfl
                rw [h2]

theorem absorb_fuel_sufficient {n : Nat} (fs : AbsorbFS n) :
    ∀ fuel : Nat,
      (∀ st dir, 2 * unvisited st.collected + 2 ≤ fuel →
        collectNodeModules fs fuel st dir ≠ none) ∧
      (∀ st p, 2 * unvisited st.collected + 3 ≤ fuel →
        collectPackage fs fuel st p ≠ none) := by
  intro fuel
  induction fuel with
  | zero =>
    constructor
    · intro st dir h
      exact absurd h (by omega)
    · intro st p h
      exact absurd h (by omega)
  | succ f ih =>
    have hE : ∀ (l : List (Fin n)) st, 2 * unvisited st.collected + 3 ≤ f →
        goEntries fs f st l ≠ none := by
      intro l
      induction l with
      | nil =>
        intro st h
        simp [goEntries]
      | cons p rest ihl =>
        intro st h
        simp only [goEntries]
        cases hc : collectPackage fs f st p with
        | none => exact absurd hc (ih.2 st p h)
        | some r =>
          cases r with
          | error e => simp
          | ok st1 =>
            simp only
            have hmono := (absorb_mono fs f).2 st p st1 hc
            have hcard := unvisited_le_of_subset hmono
            exact ihl st1 (by omega)
    constructor
    · intro st dir h
      simp only [collectNodeModules]
      by_cases hr : fs.realpath dir ∈ st.collected
      · simp [hr]
      · rw [if_neg hr]
        apply hE
        have hins := unvisited_insert st.collected (fs.realpath dir) hr
        have hcoll : ({ st with collected := insert (fs.realpath dir) st.collected } :
            AbsorbSt n).collected = insert (fs.realpath dir) st.collected := rfl
        rw [hcoll]
        omega
    · intro st p h
      simp only [collectPackage]
      by_cases hl : fs.isLink p
      · simp [hl]
      · rw [if_neg hl]
        cases hn : fs.pkgName p with
        | none => simp
        | some name =>
          cases hv : fs.pkgVersion p with
          | none => simp
          | some version =>
            simp only
            by_cases hld : fs.realpath p ∈ fs.linkedDepDirs
            · simp [hld]
            · rw [if_neg hld]
              by_cases hnm : fs.hasNM p
              · rw [if_pos hnm]
                have hbound : 2 * unvisited
                    ({ st with
                      usedIdx := (name, version) :: st.usedIdx,
                      storeIdx := (name, version) :: st.storeIdx } :
                        AbsorbSt n).collected + 2 ≤ f := by
                  have hcoll : ({ st with
                      usedIdx := (name, version) :: st.usedIdx,
                      storeIdx := (name, version) :: st.storeIdx } :
                        AbsorbSt n).collected = st.collected := rfl
                  rw [hcoll]
                  omega
                cases hc : collectNodeModules fs f
                    { st with
                      usedIdx := (name, version) :: st.usedIdx,
                      storeIdx := (name, version) :: st.storeIdx } (fs.nmDir p) with
                | none => exact absurd hc (ih.1 _ (fs.nmDir p) hbound)
                | some r => cases r <;> simp
              · rw [if_neg hnm]
                simp

theorem link_mono {n : Nat} (fs : LinkFS n) :
    ∀ fuel : Nat,
      (∀ linked p deps l2, linkDeps fs fuel linked p deps = some (.ok l2) →
        linked ⊆ l2) ∧
      (∀ linked t l2, linkDep fs fuel linked t = some (.ok l2) → linked ⊆ l2) := by
  intro fuel
  induction fuel with
  | zero =>
    constructor
    · intro linked p deps l2 h
      simp [linkDeps] at h
    · intro linked t l2 h
      simp [linkDep] at h
  | succ f ih =>
    have hG : ∀ (ds : List (LinkTarget n)) linked l2,
        goLinks fs f linked ds = some (.ok l2) → linked ⊆ l2 := by
      intro ds
      induction ds with
      | nil =>
        intro linked l2 h
        obtain rfl : linked = l2 := by simpa [goLinks] using h
        exact subset_rfl
      | cons t rest ihl =>
        intro linked l2 h
        simp only [goLinks] at h
        cases hc : linkDep fs f linked t with
        | none => rw [hc] at h; simp at h
        | some r =>
          cases r with
          | error e => rw [hc] at h; simp at h
          | ok l1 =>
            rw [hc] at h
            simp only at h
            exact (ih.2 linked t l1 hc).trans (ihl l1 l2 h)
    constructor
    · intro linked p deps l2 h
      simp only [linkDeps] at h
      by_cases hr : fs.realpath p ∈ linked
      · rw [if_pos hr] at h
        obtain rfl : linked = l2 := by simpa using h
        exact subset_rfl
      · rw [if_neg hr] at h
        exact (Finset.subset_insert _ _).trans (hG _ _ _ h)
    · intro linked t l2 h
      cases t with
      | linkSpec =>
        simp only [linkDep] at h
        obtain rfl : linked = l2 := by simpa using h
        exact subset_rfl
      | unresolved => simp [linkDep] at h
      | resolved d =>
        simp only [linkDep] at h
        cases hd : fs.pkgDeps d with
        | none =>
          rw [hd] at h
          obtain rfl : linked = l2 := by simpa using h
          exact subset_rfl
        | some ds =>
          rw [hd] at h
          exact ih.1 linked d ds l2 h

theorem link_fuel_sufficient {n : Nat} (fs : LinkFS n) :
    ∀ fuel : Nat,
      (∀ linked p deps, 2 * unvisited linked + 2 ≤ fuel →
        linkDeps fs fuel linked p deps ≠ none) ∧
      (∀ linked t, 2 * unvisited linked + 3 ≤ fuel →
        linkDep fs fuel linked t ≠ none) := by
  intro fuel
  induction fuel with
  | zero =>
    constructor
    · intro linked p deps h
      exact absurd h (by omega)
    · intro linked t h
      exact absurd h (by omega)
  | succ f ih =>
    have hG : ∀ (ds : List (LinkTarget n)) linked, 2 * unvisited linked + 3 ≤ f →
        goLinks fs f linked ds ≠ none := by
      intro ds
      induction ds with
      | nil =>
        intro linked h
        simp [goLinks]
      | cons t rest ihl =>
        intro linked h
        simp only [goLinks]
        cases hc : linkDep fs f linked t with
        | none => exact absurd hc (ih.2 linked t h)
        | some r =>
          cases r with
          | error e => simp
          | ok l1 =>
            simp only
            have hcard := unvisited_le_of_subset ((link_mono fs f).2 linked t l1 hc)
            exact ihl l1 (by omega)
    constructor
    · intro linked p deps h
      simp only [linkDeps]
      by_cases hr : fs.realpath p ∈ linked
      · simp [hr]
      · rw [if_neg hr]
        have hins := unvisited_insert linked (fs.realpath p) hr
        exact hG deps _ (by omega)
    · intro linked t h
      cases t with
      | linkSpec => simp [linkDep]
      | unresolved => simp [linkDep]
      | resolved d =>
        simp only [linkDep]
        cases hd : fs.pkgDeps d with
        | none => simp
        | some ds =>
          simp only
          exact ih.1 linked d ds (by omega)

theorem peer_mono {n : Nat} (fs : PeerFS n) :
    ∀ fuel : Nat, ∀ visited d v2,
      linkPeerDeps fs fuel visited d = some v2 → visited ⊆ v2 := by
  intro fuel
  induction fuel with
  | zero =>
    intro visited d v2 h
    simp [linkPeerDeps] at h
  | succ f ih =>
    have hG : ∀ (l : List (Fin n)) visited v2,
        goPeers fs f visited l = some v2 → visited ⊆ v2 := by
      intro l
      induction l with
      | nil =>
        intro visited v2 h
        obtain rfl : visited = v2 := by simpa [goPeers] using h
        exact subset_rfl
      | cons c rest ihl =>
        intro visited v2 h
        simp only [goPeers] at h
        cases hc : linkPeerDeps fs f visited c with
        | none => rw [hc] at h; simp at h
        | some v1 =>
          rw [hc] at h
          simp only at h
          exact (ih visited c v1 hc).trans (ihl v1 v2 h)
    intro visited d v2 h
    simp only [linkPeerDeps] at h
    by_cases hok : fs.realpathOk d = false
    · rw [if_pos hok] at h
      obtain rfl : visited = v2 := by simpa using h
      exact subset_rfl
    · rw [if_neg hok] at h
      by_cases hr : fs.realpath d ∈ visited
      · rw [if_pos hr] at h
        obtain rfl : visited = v2 := by simpa using h
        exact subset_rfl
      · rw [if_neg hr] at h
        exact (Finset.subset_insert _ _).trans (hG _ _ _ h)

theorem peer_fuel_sufficient {n : Nat} (fs : PeerFS n) :
    ∀ fuel : Nat, ∀ visited d, unvisited visited + 2 ≤ fuel →
      linkPeerDeps fs fuel visited d ≠ none := by
  intro fuel
  induction fuel with
  | zero =>
    intro visited d h
    exact absurd h (by omega)
  | succ f ih =>
    have hG : ∀ (l : List (Fin n)) visited, unvisited visited + 2 ≤ f →
        goPeers fs f visited l ≠ none := by
      intro l
      induction l with
      | nil =>
        intro visited h
        simp [goPeers]
      | cons c rest ihl =>
        intro visited h
        simp only [goPeers]
        cases hc : linkPeerDeps fs f visited c with
        | none => exact absurd hc (ih visited c h)
        | some v1 =>
          simp only
          have hcard := unvisited_le_of_subset (peer_mono fs f visited c v1 hc)
          exact ihl v1 (by omega)
    intro visited d h
    simp only [linkPeerDeps]
    by_cases hok : fs.realpathOk d = false
    · simp [hok]
    · rw [if_neg hok]
      by_cases hr : fs.realpath d ∈ visited
      · simp [hr]
      · rw [if_neg hr]
        have hins := unvisited_insert visited (fs.realpath d) hr
        exact hG (fs.children d) _ (by omega)

/-- C2: on every finite directory graph, including those whose
symlinks form cycles (a self-loop or mutually recursive links), the
absorb walk, the transitive link pass and the peer-dependency pass all
finish within a fuel budget computed from the number of canonical
paths not yet visited — each walk remembers the canonical paths it has
seen and returns on a second visit, so it can recurse at most once per
canonical path. -/
theorem walks_terminate_on_cycles {n : Nat} (afs : AbsorbFS n) (lfs : LinkFS n)
    (pfs : PeerFS n) :
    (∀ fuel st dir, 2 * unvisited st.collected + 2 ≤ fuel →
      collectNodeModules afs fuel st dir ≠ none) ∧
    (∀ fuel linked p deps, 2 * unvisited linked + 2 ≤ fuel →
      linkDeps lfs fuel linked p deps ≠ none) ∧
    (∀ fuel visited d, unvisited visited + 2 ≤ fuel →
      linkPeerDeps pfs fuel visited d ≠ none) := by
  refine ⟨?_, ?_, ?_⟩
  · intro fuel st dir h
    exact (absorb_fuel_sufficient afs fuel).1 st dir h
  · intro fuel linked p deps h
    exact (link_fuel_sufficient lfs fuel).1 linked p deps h
  · intro fuel visited d h
    exact peer_fuel_sufficient pfs fuel visited d h

/-- Closed instance of the C2 theorem on three one-directory
filesystems each containing a self-loop symlink: the scratch package
whose nested `node_modules` is itself, a store package depending on
itself, and a peer level whose child modules directory is itself. -/
theorem walks_terminate_on_cycles_witness :
    collectNodeModules
        (AbsorbFS.mk id (fun _ => [("a", 0)]) (fun _ => false)
          (fun _ => some "a") (fun _ => some "1.0.0") ∅ (fun _ => true) id :
          AbsorbFS 1) 4 (AbsorbSt.mk ∅ [] [] [] [] []) (0 : Fin 1) ≠ none ∧
    linkDeps (LinkFS.mk id (fun _ => some [.resolved 0]) : LinkFS 1) 4 ∅
        (0 : Fin 1) [.resolved 0] ≠ none ∧
    linkPeerDeps (PeerFS.mk (fun _ => true) id (fun _ => [0]) : PeerFS 1) 3 ∅
        (0 : Fin 1) ≠ none := by
  refine ⟨?_, ?_, ?_⟩
  · exact (walks_terminate_on_cycles
      (AbsorbFS.mk id (fun _ => [("a", 0)]) (fun _ => false)
        (fun _ => some "a") (fun _ => some "1.0.0") ∅ (fun _ => true) id :
        AbsorbFS 1)
      (LinkFS.mk id (fun _ => some [.resolved 0]) : LinkFS 1)
      (PeerFS.mk (fun _ => true) id (fun _ => [0]) : PeerFS 1)).1
      4 (AbsorbSt.mk ∅ [] [] [] [] []) (0 : Fin 1) (by decide)
  · exact (walks_terminate_on_cycles
      (AbsorbFS.mk id (fun _ => [("a", 0)]) (fun _ => false)
        (fun _ => some "a") (fun _ => some "1.0.0") ∅ (fun _ => true) id :
        AbsorbFS 1)
      (LinkFS.mk id (fun _ => some [.resolved 0]) : LinkFS 1)
      (PeerFS.mk (fun _ => true) id (fun _ => [0]) : PeerFS 1)).2.1
      4 ∅ (0 : Fin 1) [.resolved 0] (by decide)
  · exact (walks_terminate_on_cycles
      (AbsorbFS.mk id (fun _ => [("a", 0)]) (fun _ => false)
        (fun _ => some "a") (fun _ => some "1.0.0") ∅ (fun _ => true) id :
        AbsorbFS 1)
      (LinkFS.mk id (fun _ => some [.resolved 0]) : LinkFS 1)
      (PeerFS.mk (fun _ => true) id (fun _ => [0]) : PeerFS 1)).2.2
      3 ∅ (0 : Fin 1) (by decide)

end Slnpm
